import Mathlib

set_option maxRecDepth 100000

/-!
Verification of `scripts/export_portfolio_data.py`.

The script reads a Plotly-generated HTML file, locates the last
`Plotly.newPlot(` call, parses the JSON array of trace objects that follows
it (`json.JSONDecoder().raw_decode`), decodes each trace's `x`/`y`/`z`
arrays (plain JSON arrays, or base64-packed little-endian float32 buffers),
rounds every value to 2 decimal places, and writes a compact JSON mapping
from trace name to the rounded arrays.

Modelling conventions:
* strings are `List Char`;
* Python numbers are modelled as exact rationals; `round(v, 2)` is
  round-half-to-even at 2 decimal places (Python's documented rounding for
  `round`); IEEE-754 float32 values decoded from packed buffers are exact
  rationals (every finite float32 is rational), with infinities and NaN kept
  as distinguished values of `PyFloat`;
* fallible Python code (raised exceptions) is modelled with `Option` /
  explicit error constructors;
* the process (stdout, filesystem, exit status) is modelled by `LogLine`
  values, an `FS` record and a `MainOutcome`.
-/

/-- Exact rationals in lowest terms (positive denominator), used to model
Python float values.  A dedicated structure (rather than Mathlib's `ℚ`) so
that every operation reduces inside the kernel, letting concrete runs of
the embedded program be checked by `rfl`/`decide`. -/
structure Q2 where
  num : Int
  den : Nat
deriving DecidableEq

/-- Normalize `n / d` to lowest terms (`d ≠ 0` in every use). -/
def mkQ (n : Int) (d : Nat) : Q2 :=
  if d = 0 then ⟨0, 0⟩
  else
    let g := Nat.gcd n.natAbs d
    ⟨n / (g : Int), d / g⟩

/-- The integer `n` as a `Q2`. -/
def intQ (n : Int) : Q2 := ⟨n, 1⟩

/-- Negation of a `Q2` (keeps lowest terms). -/
def negQ (q : Q2) : Q2 := ⟨-q.num, q.den⟩

/-- Value produced by decoding/rounding a Python float: a finite rational,
an infinity, or NaN. -/
inductive PyFloat where
  | finite (q : Q2)
  | inf
  | neginf
  | nan
deriving DecidableEq

/-- JSON values as produced by Python's `json` module (numbers idealized as
exact rationals; the int/float distinction is not tracked). -/
inductive PyVal where
  | null
  | bool (b : Bool)
  | num (q : Q2)
  | str (s : List Char)
  | arr (xs : List PyVal)
  | obj (kvs : List (List Char × PyVal))

/-- Hashable Python values, the only ones admissible as `dict` keys
(`result[name]` raises `TypeError` on an unhashable `name`).  The numeric
cross-type equalities of Python (`True == 1 == 1.0`) are not modelled; no
input considered has keys of different kinds. -/
inductive PyKey where
  | null
  | bool (b : Bool)
  | num (q : Q2)
  | str (s : List Char)
deriving DecidableEq

/-- The `{x, y, z}` record stored per trace in the output mapping. -/
structure Rec3 where
  x : List PyFloat
  y : List PyFloat
  z : List PyFloat
deriving DecidableEq

/-! ## Character classes and low-level scanning (model of the `json` scanner) -/

/-- JSON whitespace accepted by Python's scanner: space, tab, newline, CR. -/
def isWsChar (c : Char) : Bool :=
  c = ' ' ∨ c = '\t' ∨ c = '\n' ∨ c = '\r'

/-- ASCII digit test. -/
def isDigitChar (c : Char) : Bool :=
  '0' ≤ c ∧ c ≤ '9'

/-- Drop leading JSON whitespace (the scanner's `_w(s, idx).end()`). -/
def skipWs : List Char → List Char
  | [] => []
  | c :: rest => if isWsChar c then skipWs rest else c :: rest

/-- Numeric value of a list of ASCII digits. -/
def digitsVal (ds : List Char) : Nat :=
  ds.foldl (fun a c => a * 10 + (c.toNat - 48)) 0

/-- Maximal run of leading digits, and the rest. -/
def scanDigits : List Char → List Char × List Char
  | [] => ([], [])
  | c :: rest =>
    if isDigitChar c then
      let p := scanDigits rest
      (c :: p.1, p.2)
    else ([], c :: rest)

/-- Integer part of the JSON number grammar `(-?(?:0|[1-9]\d*))`: a single
`0`, or a nonzero digit followed by a maximal digit run. -/
def scanIntDigits : List Char → Option (List Char × List Char)
  | [] => none
  | c :: rest =>
    if c = '0' then some ([c], rest)
    else if isDigitChar c then
      let p := scanDigits rest
      some (c :: p.1, p.2)
    else none

/-- Fraction group `(\.\d+)?`: a dot followed by at least one digit;
otherwise nothing is consumed (the dot, if any, is left in place). -/
def scanFracDigits : List Char → List Char × List Char
  | [] => ([], [])
  | c :: rest =>
    if c = '.' then
      let p := scanDigits rest
      if p.1 = [] then ([], c :: rest) else p
    else ([], c :: rest)

/-- Exponent group `([eE][-+]?\d+)?`: result is `((negated, digits), rest)`;
`digits = []` means the group did not match and nothing was consumed. -/
def scanExpPart : List Char → (Bool × List Char) × List Char
  | [] => ((false, []), [])
  | c :: rest =>
    if c = 'e' ∨ c = 'E' then
      match rest with
      | [] => ((false, []), c :: rest)
      | d :: rest2 =>
        if d = '+' then
          let p := scanDigits rest2
          if p.1 = [] then ((false, []), c :: rest) else ((false, p.1), p.2)
        else if d = '-' then
          let p := scanDigits rest2
          if p.1 = [] then ((false, []), c :: rest) else ((true, p.1), p.2)
        else
          let p := scanDigits rest
          if p.1 = [] then ((false, []), c :: rest) else ((false, p.1), p.2)
    else ((false, []), c :: rest)

/-- Value of a scanned JSON number literal from its digit groups:
`sign * (intpart * 10^k + fracdigits) / 10^k * 10^(±exp)` with `k` the
number of fraction digits. -/
def numValQ (neg : Bool) (ids fds eds : List Char) (eneg : Bool) : Q2 :=
  let k := fds.length
  let m0 : Int := (digitsVal ids * 10 ^ k + digitsVal fds : Nat)
  let mant : Int := if neg then -m0 else m0
  let e := digitsVal eds
  if eds = [] then mkQ mant (10 ^ k)
  else if eneg then mkQ mant (10 ^ k * 10 ^ e)
  else mkQ (mant * 10 ^ e) (10 ^ k)

/-- Body of the JSON number scanner, after the optional leading `-`:
integer part, optional fraction group, optional exponent group. -/
def scanNumBody (neg : Bool) (s1 : List Char) : Option (Q2 × List Char) :=
  match scanIntDigits s1 with
  | none => none
  | some (ids, r1) =>
    let fp := scanFracDigits r1
    let ep := scanExpPart fp.2
    some (numValQ neg ids fp.1 ep.1.2 ep.1.1, ep.2)

/-- JSON number scanner (Python's `NUMBER_RE` match plus conversion). -/
def scanNumber (s : List Char) : Option (Q2 × List Char) :=
  match s with
  | [] => none
  | c :: r => if c = '-' then scanNumBody true r else scanNumBody false (c :: r)

/-- Backslash escapes accepted by the `json` string scanner
(`\uXXXX` escapes are not modelled; none occur in the inputs considered). -/
def escChar (c : Char) : Option Char :=
  if c = '"' then some '"'
  else if c = '\\' then some '\\'
  else if c = '/' then some '/'
  else if c = 'b' then some (Char.ofNat 8)
  else if c = 'f' then some (Char.ofNat 12)
  else if c = 'n' then some '\n'
  else if c = 'r' then some '\r'
  else if c = 't' then some '\t'
  else none

/-- JSON string body scanner (`py_scanstring`, strict mode): input starts
just after the opening quote; returns the decoded characters and the rest
after the closing quote.  Raw control characters are rejected. -/
def scanStr : List Char → Option (List Char × List Char)
  | [] => none
  | c :: rest =>
    if c = '"' then some ([], rest)
    else if c = '\\' then
      match rest with
      | [] => none
      | e :: rest2 =>
        match escChar e with
        | none => none
        | some ch =>
          match scanStr rest2 with
          | none => none
          | some (cs, r) => some (ch :: cs, r)
    else if c.toNat < 32 then none
    else
      match scanStr rest with
      | none => none
      | some (cs, r) => some (c :: cs, r)

/-! ## The recursive-descent JSON value scanner

One fuelled function covering the three mutually recursive states of
Python's `scan_once`: scanning a value, the tail of an array (after `[` and
whitespace, when the array is not empty), and the tail of an object (after
`{` and whitespace, when the object is not empty). -/

/-- `startsWithL pat s`: `pat` is an initial segment of `s`. -/
def startsWithL : List Char → List Char → Bool
  | [], _ => true
  | _ :: _, [] => false
  | p :: ps, c :: cs => p = c && startsWithL ps cs

/-- Scanner mode. -/
inductive PM where
  | val
  | arrTail
  | objTail
deriving DecidableEq

/-- Fuelled JSON scanner.  `parseF fuel .val s` parses exactly one JSON
value at the head of `s` (no leading-whitespace skip, as in `raw_decode`)
and returns it with the unconsumed rest of the input. -/
def parseF : Nat → PM → List Char → Option (PyVal × List Char)
  | 0, _, _ => none
  | _ + 1, .val, [] => none
  | f + 1, .val, c :: rest =>
    if c = '{' then
      match skipWs rest with
      | [] => parseF f .objTail []
      | d :: r0 => if d = '}' then some (.obj [], r0) else parseF f .objTail (d :: r0)
    else if c = '[' then
      match skipWs rest with
      | [] => parseF f .arrTail []
      | d :: r0 => if d = ']' then some (.arr [], r0) else parseF f .arrTail (d :: r0)
    else if c = '"' then
      match scanStr rest with
      | none => none
      | some (cs, r) => some (.str cs, r)
    else if c = 't' then
      if startsWithL "true".data (c :: rest) then some (.bool true, rest.drop 3)
      else none
    else if c = 'f' then
      if startsWithL "false".data (c :: rest) then some (.bool false, rest.drop 4)
      else none
    else if c = 'n' then
      if startsWithL "null".data (c :: rest) then some (.null, rest.drop 3)
      else none
    else
      match scanNumber (c :: rest) with
      | none => none
      | some (q, r) => some (.num q, r)
  | f + 1, .arrTail, s =>
    match parseF f .val s with
    | none => none
    | some (v, r1) =>
      match skipWs r1 with
      | [] => none
      | d :: r2 =>
        if d = ',' then
          match parseF f .arrTail (skipWs r2) with
          | some (.arr xs, r3) => some (.arr (v :: xs), r3)
          | _ => none
        else if d = ']' then some (.arr [v], r2)
        else none
  | f + 1, .objTail, s =>
    match s with
    | [] => none
    | c :: rest =>
      if c = '"' then
        match scanStr rest with
        | none => none
        | some (k, r1) =>
          match skipWs r1 with
          | [] => none
          | d :: r2 =>
            if d = ':' then
              match parseF f .val (skipWs r2) with
              | none => none
              | some (v, r3) =>
                match skipWs r3 with
                | [] => none
                | d2 :: r4 =>
                  if d2 = ',' then
                    match parseF f .objTail (skipWs r4) with
                    | some (.obj kvs, r5) => some (.obj ((k, v) :: kvs), r5)
                    | _ => none
                  else if d2 = '}' then some (.obj [(k, v)], r4)
                  else none
            else none
      else none

/-- Model of `json.JSONDecoder().raw_decode(s)`: parse exactly one JSON
value at the start of `s`, ignoring the rest.  The fuel `3 * s.length + 3`
is sufficient because every recursive call of `parseF` follows consumption
of at least one character out of every three fuel units. -/
def raw_decode (s : List Char) : Option (PyVal × List Char) :=
  parseF (3 * s.length + 3) .val s

/-! ## Trace location (`extract_traces`, lines 13–29 of the script) -/

/-- The plot-initialization marker searched with `content.rfind`. -/
def marker : List Char := "Plotly.newPlot(".data

/-- First JSON start pattern searched (line 23). -/
def patCustom : List Char := "[\x7b\"customdata".data

/-- Fallback JSON start pattern (line 25). -/
def patAny : List Char := "[\x7b\"".data

/-- `matchesAt s pat i`: `pat` occurs in `s` at position `i`. -/
def matchesAt (s pat : List Char) (i : Nat) : Bool :=
  startsWithL pat (s.drop i)

/-- Scan positions `i, i-1, …, 0` for an occurrence of `pat`. -/
def rfindFrom (s pat : List Char) : Nat → Option Nat
  | 0 => if matchesAt s pat 0 then some 0 else none
  | i + 1 => if matchesAt s pat (i + 1) then some (i + 1) else rfindFrom s pat i

/-- Python `content.rfind(pat)` (as an `Option` instead of the `-1`
sentinel, which line 19 tests immediately): greatest index at which `pat`
occurs. -/
def rfind (s pat : List Char) : Option Nat :=
  rfindFrom s pat s.length

/-- Python `content.find(pat)`: least index at which `pat` occurs. -/
def findIdx0 (s pat : List Char) : Option Nat :=
  (List.range (s.length + 1)).find? (fun i => matchesAt s pat i)

/-- The `bracket_start` computation (lines 23–25), with Python's `-1`
"not found" sentinel kept, since line 28 uses it unchecked. -/
def bracketStart (after : List Char) : Int :=
  match findIdx0 after patCustom with
  | some v => v
  | none =>
    match findIdx0 after patAny with
    | some v => (v : Int)
    | none => -1

/-- Python slice `l[i:]`, including negative-index semantics: a negative
start counts from the end of the list (clamped at 0). -/
def pySlice (l : List Char) (i : Int) : List Char :=
  if 0 ≤ i then l.drop i.toNat else l.drop ((l.length + i).toNat)

/-- Outcome of `extract_traces`. -/
inductive ExtractResult where
  | valueError      -- the `ValueError` raised at line 20
  | decodeError     -- `json.JSONDecodeError` raised by `raw_decode`
  | ok (traces : PyVal)

/-- Model of `extract_traces` (lines 13–29).  Note that when neither JSON
start pattern occurs, `bracket_start` stays `-1` and `after[bracket_start:]`
is the final character of the document (Python negative slicing), which is
then handed to `raw_decode` — there is no "not found" check for the
bracket search. -/
def extract_tracesM (content : List Char) : ExtractResult :=
  match rfind content marker with
  | none => .valueError
  | some idx =>
    let after := content.drop idx
    match raw_decode (pySlice after (bracketStart after)) with
    | some (v, _) => .ok v
    | none => .decodeError

/-- The character offset (from the start of the document) at which the
trace-array JSON is parsed, in the case that a JSON start pattern was
found: `idx + bracket_start`. -/
def locateOffset (content : List Char) : Option Nat :=
  match rfind content marker with
  | none => none
  | some idx =>
    match bracketStart (content.drop idx) with
    | .ofNat b => some (idx + b)
    | .negSucc _ => none

/-! ## Binary array decoding (`decode_binary_array`, lines 32–37) -/

/-- Value of a standard base64 alphabet character. -/
def b64val (c : Char) : Option Nat :=
  if 'A' ≤ c ∧ c ≤ 'Z' then some (c.toNat - 65)
  else if 'a' ≤ c ∧ c ≤ 'z' then some (c.toNat - 71)
  else if '0' ≤ c ∧ c ≤ '9' then some (c.toNat + 4)
  else if c = '+' then some 62
  else if c = '/' then some 63
  else none

/-- Model of `base64.b64decode`: standard alphabet, groups of four symbols,
`=` padding only at the very end; invalid input is `none`
(`binascii.Error`). -/
def b64decode : List Char → Option (List Nat)
  | [] => some []
  | c1 :: c2 :: c3 :: c4 :: rest =>
    match b64val c1, b64val c2 with
    | some v1, some v2 =>
      if c3 = '=' then
        if c4 = '=' ∧ rest = [] then some [v1 * 4 + v2 / 16] else none
      else
        match b64val c3 with
        | some v3 =>
          if c4 = '=' then
            if rest = [] then some [v1 * 4 + v2 / 16, v2 % 16 * 16 + v3 / 4] else none
          else
            match b64val c4, b64decode rest with
            | some v4, some tl =>
              some ((v1 * 4 + v2 / 16) :: (v2 % 16 * 16 + v3 / 4) :: (v3 % 4 * 64 + v4) :: tl)
            | _, _ => none
        | none => none
    | _, _ => none
  | _ => none

/-- Exact value of an IEEE-754 binary32 bit pattern `w < 2^32`: a rational
for the finite cases, `±Infinity`/`NaN` for exponent 255. -/
def f32ValOfBits (w : Nat) : PyFloat :=
  let sign := w / 2 ^ 31
  let e : Nat := w / 2 ^ 23 % 256
  let m : Nat := w % 2 ^ 23
  if e = 255 then
    if m = 0 then (if sign = 0 then .inf else .neginf) else .nan
  else if e = 0 then
    .finite (mkQ (if sign = 0 then (m : Int) else -(m : Int)) (2 ^ 149))
  else
    .finite (mkQ ((if sign = 0 then (((2 ^ 23 + m : Nat) : Int))
                   else (-((2 ^ 23 + m : Nat) : Int))) * (2 : Int) ^ e) (2 ^ 150))

/-- Little-endian reassembly of 4 bytes into a float32 value (one element
of `struct.unpack("<…f", raw)`). -/
def f32FromLE (b0 b1 b2 b3 : Nat) : PyFloat :=
  f32ValOfBits (b0 + 256 * b1 + 65536 * b2 + 16777216 * b3)

/-- Consecutive 4-byte groups decoded as little-endian float32. -/
def unpackF32s : List Nat → List PyFloat
  | b0 :: b1 :: b2 :: b3 :: rest => f32FromLE b0 b1 b2 b3 :: unpackF32s rest
  | _ => []

/-- Little-endian byte encoding of a 32-bit word — the inverse view of
`f32FromLE`, used to state the packed/plain round-trip equivalence. -/
def toLEBytes (w : Nat) : List Nat :=
  [w % 256, w / 256 % 256, w / 65536 % 256, w / 16777216 % 256]

/-- Concatenated little-endian encoding of a list of 32-bit words: the
byte buffer that carries those words in packed form. -/
def packLE : List Nat → List Nat
  | [] => []
  | w :: ws => toLEBytes w ++ packLE ws

/-! ## Rounding (`round(v, 2)`) -/

/-- Round `n / d` (`d > 0`) half-to-even to an integer, Python's `round`
rule. -/
def rheND (n : Int) (d : Nat) : Int :=
  let f := Int.fdiv n d
  let r := n - f * d
  if 2 * r < (d : Int) then f
  else if (d : Int) < 2 * r then f + 1
  else if f % 2 = 0 then f else f + 1

/-- `round(q, 2)`: round half-to-even at 2 decimal places. -/
def rnd2 (q : Q2) : Q2 :=
  mkQ (rheND (q.num * 100) q.den) 100

/-- `round(v, 2)` on a float value (`round(inf, 2) = inf`, `round(nan, 2)
= nan`). -/
def roundF : PyFloat → PyFloat
  | .finite q => .finite (rnd2 q)
  | .inf => .inf
  | .neginf => .neginf
  | .nan => .nan

/-! ## Trace processing (`main`, lines 52–75) -/

/-- Lookup in a parsed JSON object: the LAST binding of a duplicated key
wins, as in the `dict` built by `json.loads`. -/
def lookupLast (kvs : List (List Char × PyVal)) (k : List Char) : Option PyVal :=
  match kvs with
  | [] => none
  | (k0, v0) :: rest =>
    match lookupLast rest k with
    | some w => some w
    | none => if k0 = k then some v0 else none

/-- `trace.get(key, default)` on a parsed JSON object. -/
def getDefault (kvs : List (List Char × PyVal)) (k : List Char) (d : PyVal) : PyVal :=
  match lookupLast kvs k with
  | some v => v
  | none => d

/-- `isinstance(v, dict) and "bdata" in v` (line 61). -/
def isBdataObj : PyVal → Bool
  | .obj kvs => (lookupLast kvs "bdata".data).isSome
  | _ => false

/-- `data["bdata"]`; `KeyError`/`TypeError` modelled as `none`. -/
def getItem : PyVal → List Char → Option PyVal
  | .obj kvs, k => lookupLast kvs k
  | _, _ => none

/-- Model of `decode_binary_array` (lines 32–37): fetch `data["bdata"]`
(which must be text), base64-decode it, take `n = len(raw) // 4`, and
`struct.unpack` exactly `n` little-endian float32 — which raises
`struct.error` (`none`) unless `len(raw) == 4 * n` — then round each value
to 2 decimals. -/
def decode_binary_array (data : PyVal) : Option (List PyFloat) :=
  match getItem data "bdata".data with
  | some (.str bs) =>
    match b64decode bs with
    | some raw =>
      if raw.length % 4 = 0 then some ((unpackF32s raw).map roundF) else none
    | none => none
  | _ => none

/-- Python iteration `for v in x`: lists yield elements, strings yield
1-character strings, dicts yield their keys; other values raise
`TypeError`. -/
def pyIter : PyVal → Option (List PyVal)
  | .arr xs => some xs
  | .str cs => some (cs.map (fun c => .str [c]))
  | .obj kvs => some (kvs.map (fun p => .str p.1))
  | _ => none

/-- `round(v, 2)` on an arbitrary value: numbers round; `True`/`False` are
the ints 1/0 in Python; anything else raises `TypeError`. -/
def roundVal : PyVal → Option PyFloat
  | .num q => some (.finite (rnd2 q))
  | .bool b => some (.finite (intQ (if b then 1 else 0)))
  | _ => none

/-- `[round(v, 2) for v in xs]`, failing at the first bad element. -/
def mapRound : List PyVal → Option (List PyFloat)
  | [] => some []
  | v :: rest =>
    match roundVal v, mapRound rest with
    | some fv, some fr => some (fv :: fr)
    | _, _ => none

/-- The plain branch `[round(v, 2) for v in raw]` (lines 66–68), including
the implicit iteration over whatever `raw` is. -/
def plainDecode (v : PyVal) : Option (List PyFloat) :=
  match pyIter v with
  | some xs => mapRound xs
  | none => none

/-- A trace name as a `dict` key; unhashable values raise `TypeError` at
`result[name]`. -/
def toKey : PyVal → Option PyKey
  | .null => some .null
  | .bool b => some (.bool b)
  | .num q => some (.num q)
  | .str s => some (.str s)
  | _ => none

/-- Result of the loop body for one trace: unhandled exception, the
`continue` of line 71, or a mapping entry. -/
inductive StepRes where
  | crash
  | skip (name : PyVal)
  | ok (name : PyKey) (r : Rec3)

/-- One iteration of the `for trace in traces` loop (lines 55–75).  Only
the SHAPE OF `x` decides between the packed branch, the plain branch and
the skip; `y`/`z` are then decoded on the chosen branch unconditionally
(lines 61–68). -/
def processTrace (trace : PyVal) : StepRes :=
  match trace with
  | .obj kvs =>
    let name := getDefault kvs "name".data (.str "unknown".data)
    let x_raw := getDefault kvs "x".data (.obj [])
    let y_raw := getDefault kvs "y".data (.obj [])
    let z_raw := getDefault kvs "z".data (.obj [])
    if isBdataObj x_raw then
      match decode_binary_array x_raw, decode_binary_array y_raw,
          decode_binary_array z_raw with
      | some xa, some ya, some za =>
        match toKey name with
        | some k => .ok k ⟨xa, ya, za⟩
        | none => .crash
      | _, _, _ => .crash
    else
      match x_raw with
      | .arr _ =>
        match plainDecode x_raw, plainDecode y_raw, plainDecode z_raw with
        | some xa, some ya, some za =>
          match toKey name with
          | some k => .ok k ⟨xa, ya, za⟩
          | none => .crash
        | _, _, _ => .crash
      | _ => .skip name
  | _ => .crash

/-- Test for a plain JSON array value (`isinstance(x_raw, list)`). -/
def isArrV : PyVal → Bool
  | .arr _ => true
  | _ => false

/-- Test for a number value. -/
def isNumV : PyVal → Bool
  | .num _ => true
  | _ => false

/-- Operator-facing output lines, with the data they carry. -/
inductive LogLine where
  | errMissing (path : List Char)
  | reading (path : List Char)
  | skipTrace (name : PyVal)
  | traceCount (name : PyKey) (n : Nat)
  | saved (path : List Char) (bytes : Nat) (total : Nat)

/-- `result[name] = …` on the insertion-ordered `dict`: overwrite in place
when the key exists, else append. -/
def dictInsert (m : List (PyKey × Rec3)) (k : PyKey) (v : Rec3) :
    List (PyKey × Rec3) :=
  if m.any (fun p => p.1 = k) then
    m.map (fun p => if p.1 = k then (k, v) else p)
  else m ++ [(k, v)]

/-- First-match lookup in the output mapping (sound because `dictInsert`
keeps keys unique). -/
def lookupK : List (PyKey × Rec3) → PyKey → Option Rec3
  | [], _ => none
  | (k0, v0) :: rest, k => if k0 = k then some v0 else lookupK rest k

/-- The whole `for trace in traces` loop, threading the mapping, the log
and the running point total; `none` models an unhandled exception. -/
def mainLoop : List PyVal → List (PyKey × Rec3) × List LogLine × Nat →
    Option (List (PyKey × Rec3) × List LogLine × Nat)
  | [], acc => some acc
  | t :: rest, (m, log, tot) =>
    match processTrace t with
    | .crash => none
    | .skip name => mainLoop rest (m, log ++ [.skipTrace name], tot)
    | .ok k r =>
      mainLoop rest
        (dictInsert m k r, log ++ [.traceCount k r.x.length], tot + r.x.length)

/-! ## JSON serialization (`json.dump(result, f, separators=(",", ":"))`) -/

/-- Decimal digits of a natural number. -/
def dumpNat (n : Nat) : List Char := (Nat.repr n).data

/-- `repr` of a rounded float.  Every finite value reaching this point is a
multiple of 1/100 of small magnitude, for which Python's shortest
round-trip `repr` is the plain decimal form with 1 or 2 fraction digits. -/
def dumpFloat : PyFloat → List Char
  | .finite q =>
    let sgn : List Char := if q.num < 0 then ['-'] else []
    let n := q.num.natAbs * 100 / q.den
    let i := n / 100
    let f := n % 100
    sgn ++ dumpNat i ++ '.' ::
      (if f % 10 = 0 then dumpNat (f / 10)
       else if f < 10 then '0' :: dumpNat f
       else dumpNat f)
  | .inf => "Infinity".data
  | .neginf => "-Infinity".data
  | .nan => "NaN".data

/-- JSON string quoting (escaping of special characters is not modelled;
no name in the inputs considered needs it). -/
def quoteStr (s : List Char) : List Char := '"' :: s ++ ['"']

/-- Serialization of a `dict` key (`json.dump` stringifies non-string
keys). -/
def dumpKey : PyKey → List Char
  | .str s => quoteStr s
  | .num q => quoteStr (dumpFloat (.finite q))
  | .bool b => quoteStr (if b then "true".data else "false".data)
  | .null => quoteStr "null".data

/-- Comma-join, matching the `","` item separator. -/
def joinComma : List (List Char) → List Char
  | [] => []
  | [x] => x
  | x :: y :: rest => x ++ ',' :: joinComma (y :: rest)

/-- A JSON array of floats. -/
def dumpFList (l : List PyFloat) : List Char :=
  '[' :: joinComma (l.map dumpFloat) ++ [']']

/-- The `{"x": …, "y": …, "z": …}` record, compact separators. -/
def dumpRec (r : Rec3) : List Char :=
  "\x7b\"x\":".data ++ dumpFList r.x ++ ",\"y\":".data ++ dumpFList r.y
    ++ ",\"z\":".data ++ dumpFList r.z ++ ['\x7d']

/-- The whole output document written by `json.dump`. -/
def dumpMapping (m : List (PyKey × Rec3)) : List Char :=
  '\x7b' :: joinComma (m.map (fun p => dumpKey p.1 ++ ':' :: dumpRec p.2))
    ++ ['\x7d']

/-! ## The orchestrator (`main`, lines 40–81) -/

/-- Input path used by `main`, relative to the project root. -/
def html_path : List Char := "output/audio_classifier_3d.html".data

/-- Output path used by `main`, relative to the project root. -/
def output_path : List Char := "portfolio_data.json".data

/-- The filesystem as `main` sees it: the contents of the input HTML file
and of the output file, when each exists. -/
structure FS where
  input : Option (List Char)
  output : Option (List Char)

/-- Result of a run of `main`: `sys.exit(code)`, an unhandled exception
(non-zero process status, no controlled output), or normal completion. -/
inductive MainOutcome where
  | exitErr (code : Nat) (log : List LogLine)
  | crash
  | ok (m : List (PyKey × Rec3)) (log : List LogLine)

/-- Model of `main` (lines 40–81): missing input file → report and
`sys.exit(1)` before any parse; then locate/parse, loop over the traces,
and only then open and write the output file. -/
def runMain (fs : FS) : MainOutcome × FS :=
  match fs.input with
  | none => (.exitErr 1 [.errMissing html_path], fs)
  | some content =>
    match extract_tracesM content with
    | .ok traces =>
      match pyIter traces with
      | none => (.crash, fs)
      | some ts =>
        match mainLoop ts ([], [.reading html_path], 0) with
        | none => (.crash, fs)
        | some (m, log, tot) =>
          let out := dumpMapping m
          (.ok m (log ++ [.saved output_path out.length tot]),
            { fs with output := some out })
    | _ => (.crash, fs)

/-- Process exit status of an outcome (`none` for the uncontrolled
non-zero status of an unhandled exception). -/
def exitCode : MainOutcome → Option Nat
  | .exitErr c _ => some c
  | .crash => none
  | .ok _ _ => some 0

/-- The written mapping, when the run completed. -/
def outMapping : MainOutcome → Option (List (PyKey × Rec3))
  | .ok m _ => some m
  | _ => none

/-- The log of an outcome. -/
def outLog : MainOutcome → List LogLine
  | .ok _ l => l
  | .exitErr _ l => l
  | .crash => []

/-- Names of the `Skipping trace …` diagnostic lines in a log. -/
def skipLines (l : List LogLine) : List PyVal :=
  l.filterMap (fun e => match e with | .skipTrace n => some n | _ => none)

/-! ## Lemmas about the marker search (for the locator) -/

theorem startsWithL_ne_nil {p : Char} {ps l : List Char}
    (h : startsWithL (p :: ps) l = true) : l ≠ [] := by
  intro he
  subst he
  simp [startsWithL] at h

theorem matchesAt_le_length {s pat : List Char} {k : Nat}
    (h : matchesAt s pat k = true) (hpat : pat ≠ []) : k ≤ s.length := by
  cases pat with
  | nil => exact absurd rfl hpat
  | cons p ps =>
    by_contra hk
    have hd : s.drop k = [] := List.drop_eq_nil_iff.mpr (by omega)
    rw [matchesAt, hd] at h
    exact startsWithL_ne_nil h rfl

theorem rfindFrom_ge {s pat : List Char} :
    ∀ i k j, matchesAt s pat k = true → k ≤ i → rfindFrom s pat i = some j → k ≤ j := by
  intro i
  induction i with
  | zero =>
    intro k j hk hki hr
    omega
  | succ i ih =>
    intro k j hk hki hr
    rw [rfindFrom] at hr
    by_cases hm : matchesAt s pat (i + 1) = true
    · rw [if_pos hm] at hr
      cases hr
      omega
    · rw [if_neg hm] at hr
      rcases Nat.lt_or_ge k (i + 1) with hlt | hge
      · exact ih k j hk (by omega) hr
      · exact absurd (by rw [show k = i + 1 by omega] at hk; exact hk) hm

/-! ## Extension lemmas: scanning a string extended on the right -/

theorem skipWs_ext {s : List Char} {c : Char} {r : List Char} (t : List Char)
    (h : skipWs s = c :: r) : skipWs (s ++ t) = c :: (r ++ t) := by
  induction s with
  | nil => simp [skipWs] at h
  | cons a as ih =>
    rw [skipWs] at h
    by_cases hw : isWsChar a = true
    · rw [if_pos hw] at h
      simpa [skipWs, hw] using ih h
    · rw [if_neg hw] at h
      cases h
      simp [skipWs, hw]

theorem skipWs_head {s : List Char} {c : Char} {r : List Char}
    (h : skipWs s = c :: r) :
    ∃ c0 s0, s = c0 :: s0 ∧ (isWsChar c0 = true ∨ c0 = c) := by
  induction s with
  | nil => simp [skipWs] at h
  | cons a as ih =>
    rw [skipWs] at h
    by_cases hw : isWsChar a = true
    · exact ⟨a, as, rfl, Or.inl hw⟩
    · rw [if_neg hw] at h
      obtain ⟨h1, h2⟩ := (List.cons.injEq _ _ _ _).mp h
      exact ⟨a, as, rfl, Or.inr h1⟩

theorem scanDigits_ext {s ds : List Char} {c : Char} {r : List Char} (t : List Char)
    (h : scanDigits s = (ds, c :: r)) : scanDigits (s ++ t) = (ds, c :: (r ++ t)) := by
  induction s generalizing ds with
  | nil => simp [scanDigits] at h
  | cons a as ih =>
    rw [scanDigits] at h
    by_cases hd : isDigitChar a = true
    · rw [if_pos hd] at h
      have h0 : (a :: (scanDigits as).1, (scanDigits as).2) = (ds, c :: r) := h
      obtain ⟨hA, hB⟩ := (Prod.mk.injEq _ _ _ _).mp h0
      have h2 : scanDigits as = ((scanDigits as).1, c :: r) := by
        rw [← hB]
      have h3 := ih h2
      simp only [List.cons_append, scanDigits, if_pos hd, List.append_eq, h3]
      rw [← hA]
    · rw [if_neg hd] at h
      obtain ⟨hA, hB⟩ := (Prod.mk.injEq _ _ _ _).mp h
      obtain ⟨h1, h2⟩ := (List.cons.injEq _ _ _ _).mp hB
      subst hA h1 h2
      simp [scanDigits, hd]

theorem scanDigits_stop {s ds : List Char} {c : Char} {r : List Char}
    (h : scanDigits s = (ds, c :: r)) : isDigitChar c = false := by
  induction s generalizing ds with
  | nil => simp [scanDigits] at h
  | cons a as ih =>
    rw [scanDigits] at h
    by_cases hd : isDigitChar a = true
    · rw [if_pos hd] at h
      have h0 : (a :: (scanDigits as).1, (scanDigits as).2) = (ds, c :: r) := h
      obtain ⟨hA, hB⟩ := (Prod.mk.injEq _ _ _ _).mp h0
      exact ih (by rw [← hB])
    · rw [if_neg hd] at h
      obtain ⟨hA, hB⟩ := (Prod.mk.injEq _ _ _ _).mp h
      obtain ⟨h1, h2⟩ := (List.cons.injEq _ _ _ _).mp hB
      subst h1
      simpa using hd

theorem scanIntDigits_ext {s ids : List Char} {c : Char} {r : List Char} (t : List Char)
    (h : scanIntDigits s = some (ids, c :: r)) :
    scanIntDigits (s ++ t) = some (ids, c :: (r ++ t)) := by
  cases s with
  | nil => simp [scanIntDigits] at h
  | cons a as =>
    rw [scanIntDigits] at h
    by_cases h0 : a = '0'
    · rw [if_pos h0] at h
      cases h
      simp [scanIntDigits, h0]
    · rw [if_neg h0] at h
      by_cases hd : isDigitChar a = true
      · rw [if_pos hd] at h
        have hS : some (a :: (scanDigits as).1, (scanDigits as).2)
            = some (ids, c :: r) := h
        obtain ⟨hA, hB⟩ := (Prod.mk.injEq _ _ _ _).mp ((Option.some.injEq _ _).mp hS)
        have h2 : scanDigits as = ((scanDigits as).1, c :: r) := by
          rw [← hB]
        simp only [List.cons_append, scanIntDigits, if_neg h0, if_pos hd,
          List.append_eq, scanDigits_ext t h2]
        rw [← hA]
      · rw [if_neg hd] at h
        exact absurd h (by simp)

theorem scanStr_ext : ∀ (s cs r t : List Char),
    scanStr s = some (cs, r) → scanStr (s ++ t) = some (cs, r ++ t)
  | [], cs, r, t, h => by simp [scanStr] at h
  | c :: rest, cs, r, t, h => by
    rw [scanStr.eq_def] at h
    simp only at h
    by_cases hq : c = '"'
    · rw [if_pos hq] at h
      obtain ⟨hA, hB⟩ := (Prod.mk.injEq _ _ _ _).mp ((Option.some.injEq _ _).mp h)
      subst hA hB
      subst hq
      rw [scanStr.eq_def]
      simp
    · rw [if_neg hq] at h
      by_cases hb : c = '\\'
      · rw [if_pos hb] at h
        cases rest with
        | nil => simp at h
        | cons e rest2 =>
          simp only at h
          cases hesc : escChar e with
          | none => rw [hesc] at h; simp at h
          | some ch =>
            rw [hesc] at h
            cases hs : scanStr rest2 with
            | none => rw [hs] at h; simp at h
            | some p =>
              obtain ⟨cs0, r0⟩ := p
              rw [hs] at h
              simp only at h
              obtain ⟨hA, hB⟩ := (Prod.mk.injEq _ _ _ _).mp ((Option.some.injEq _ _).mp h)
              subst hA hB
              have hrec := scanStr_ext rest2 cs0 r0 t hs
              rw [List.cons_append, scanStr.eq_def]
              simp only [if_neg hq, if_pos hb, List.cons_append]
              rw [hesc, hrec]
      · rw [if_neg hb] at h
        by_cases hc : c.toNat < 32
        · rw [if_pos hc] at h; simp at h
        · rw [if_neg hc] at h
          cases hs : scanStr rest with
          | none => rw [hs] at h; simp at h
          | some p =>
            obtain ⟨cs0, r0⟩ := p
            rw [hs] at h
            simp only at h
            obtain ⟨hA, hB⟩ := (Prod.mk.injEq _ _ _ _).mp ((Option.some.injEq _ _).mp h)
            subst hA hB
            have hrec := scanStr_ext rest cs0 r0 t hs
            rw [List.cons_append, scanStr.eq_def]
            simp only [if_neg hq, if_neg hb, if_neg hc]
            rw [hrec]

/-- Characters that cannot extend a maximal-munch JSON number match on the
right: anything but a digit, `.`, `e`, `E`, `+`, `-`. -/
def numSafeChar (c : Char) : Bool :=
  !(isDigitChar c || c = '.' || c = 'e' || c = 'E' || c = '+' || c = '-')

/-- Unfolding of `scanExpPart` on a 1-element list. -/
theorem scanExpPart_one (c : Char) :
    scanExpPart [c] =
      if c = 'e' ∨ c = 'E' then ((false, []), [c]) else ((false, []), [c]) := rfl

/-- Unfolding of `scanExpPart` on a list with at least 2 elements. -/
theorem scanExpPart_cons2 (c d : Char) (rest2 : List Char) :
    scanExpPart (c :: d :: rest2) =
      if c = 'e' ∨ c = 'E' then
        if d = '+' then
          if (scanDigits rest2).1 = [] then ((false, []), c :: d :: rest2)
          else ((false, (scanDigits rest2).1), (scanDigits rest2).2)
        else if d = '-' then
          if (scanDigits rest2).1 = [] then ((false, []), c :: d :: rest2)
          else ((true, (scanDigits rest2).1), (scanDigits rest2).2)
        else
          if (scanDigits (d :: rest2)).1 = [] then ((false, []), c :: d :: rest2)
          else ((false, (scanDigits (d :: rest2)).1), (scanDigits (d :: rest2)).2)
      else ((false, []), c :: d :: rest2) := rfl

/-- `scanExpPart` consumes nothing when the head is not `e`/`E`. -/
theorem scanExpPart_not_e (c : Char) (rest : List Char)
    (he : ¬(c = 'e' ∨ c = 'E')) :
    scanExpPart (c :: rest) = ((false, []), c :: rest) := by
  cases rest with
  | nil => rw [scanExpPart_one, if_neg he]
  | cons d rest2 => rw [scanExpPart_cons2, if_neg he]

theorem scanExpPart_ext {s2 : List Char} {epv : Bool × List Char} {c : Char}
    {r : List Char} (t : List Char)
    (h : scanExpPart s2 = (epv, c :: r)) (hc : numSafeChar c = true) :
    scanExpPart (s2 ++ t) = (epv, c :: (r ++ t)) := by
  cases s2 with
  | nil => simp [scanExpPart] at h
  | cons c2 s2' =>
    by_cases he : (c2 = 'e' ∨ c2 = 'E')
    · cases s2' with
      | nil =>
        rw [scanExpPart_one, if_pos he] at h
        obtain ⟨hA, hB⟩ := (Prod.mk.injEq _ _ _ _).mp h
        obtain ⟨h1, h2⟩ := (List.cons.injEq _ _ _ _).mp hB
        subst h1
        rcases he with he | he <;> simp [he, numSafeChar] at hc
      | cons d rest2 =>
        rw [scanExpPart_cons2, if_pos he] at h
        by_cases hp : d = '+'
        · rw [if_pos hp] at h
          by_cases hz : (scanDigits rest2).1 = []
          · rw [if_pos hz] at h
            obtain ⟨hA, hB⟩ := (Prod.mk.injEq _ _ _ _).mp h
            obtain ⟨h1, h2⟩ := (List.cons.injEq _ _ _ _).mp hB
            subst h1
            rcases he with he | he <;> simp [he, numSafeChar] at hc
          · rw [if_neg hz] at h
            obtain ⟨hA, hB⟩ := (Prod.mk.injEq _ _ _ _).mp h
            have h2 : scanDigits rest2 = ((scanDigits rest2).1, c :: r) := by
              rw [← hB]
            have h3 := scanDigits_ext t h2
            rw [List.cons_append, List.cons_append, scanExpPart_cons2, if_pos he,
              if_pos hp, h3]
            rw [if_neg (by simpa using hz)]
            rw [← hA]
        · rw [if_neg hp] at h
          by_cases hm : d = '-'
          · rw [if_pos hm] at h
            by_cases hz : (scanDigits rest2).1 = []
            · rw [if_pos hz] at h
              obtain ⟨hA, hB⟩ := (Prod.mk.injEq _ _ _ _).mp h
              obtain ⟨h1, h2⟩ := (List.cons.injEq _ _ _ _).mp hB
              subst h1
              rcases he with he | he <;> simp [he, numSafeChar] at hc
            · rw [if_neg hz] at h
              obtain ⟨hA, hB⟩ := (Prod.mk.injEq _ _ _ _).mp h
              have h2 : scanDigits rest2 = ((scanDigits rest2).1, c :: r) := by
                rw [← hB]
              have h3 := scanDigits_ext t h2
              rw [List.cons_append, List.cons_append, scanExpPart_cons2, if_pos he,
                if_neg hp, if_pos hm, h3]
              rw [if_neg (by simpa using hz)]
              rw [← hA]
          · rw [if_neg hm] at h
            by_cases hz : (scanDigits (d :: rest2)).1 = []
            · rw [if_pos hz] at h
              obtain ⟨hA, hB⟩ := (Prod.mk.injEq _ _ _ _).mp h
              obtain ⟨h1, h2⟩ := (List.cons.injEq _ _ _ _).mp hB
              subst h1
              rcases he with he | he <;> simp [he, numSafeChar] at hc
            · rw [if_neg hz] at h
              obtain ⟨hA, hB⟩ := (Prod.mk.injEq _ _ _ _).mp h
              have h2 : scanDigits (d :: rest2)
                  = ((scanDigits (d :: rest2)).1, c :: r) := by
                rw [← hB]
              have h3 := scanDigits_ext t h2
              rw [List.cons_append, List.cons_append, scanExpPart_cons2, if_pos he,
                if_neg hp, if_neg hm]
              rw [show d :: (rest2 ++ t) = (d :: rest2) ++ t from rfl, h3]
              rw [if_neg (by simpa using hz)]
              rw [← hA]
    · rw [scanExpPart_not_e c2 s2' he] at h
      obtain ⟨hA, hB⟩ := (Prod.mk.injEq _ _ _ _).mp h
      obtain ⟨h1, h2⟩ := (List.cons.injEq _ _ _ _).mp hB
      subst h1 h2
      rw [List.cons_append, scanExpPart_not_e _ _ he, ← hA]

/-- Unfolding of `scanFracDigits` at a cons. -/
theorem scanFracDigits_cons (c : Char) (rest : List Char) :
    scanFracDigits (c :: rest) =
      if c = '.' then
        if (scanDigits rest).1 = [] then ([], c :: rest) else scanDigits rest
      else ([], c :: rest) := rfl

theorem scanNumBody_none {s1 : List Char} (neg : Bool)
    (hi : scanIntDigits s1 = none) : scanNumBody neg s1 = none := by
  simp only [scanNumBody, hi]

theorem scanNumBody_some {s1 ids r1 : List Char} (neg : Bool)
    (hi : scanIntDigits s1 = some (ids, r1)) :
    scanNumBody neg s1 =
      some (numValQ neg ids (scanFracDigits r1).1
              (scanExpPart (scanFracDigits r1).2).1.2
              (scanExpPart (scanFracDigits r1).2).1.1,
            (scanExpPart (scanFracDigits r1).2).2) := by
  simp only [scanNumBody, hi]

theorem scanNumBody_ext {neg : Bool} {s1 : List Char} {q : Q2} {c : Char}
    {r : List Char} (t : List Char)
    (h : scanNumBody neg s1 = some (q, c :: r)) (hc : numSafeChar c = true) :
    scanNumBody neg (s1 ++ t) = some (q, c :: (r ++ t)) := by
  cases hi : scanIntDigits s1 with
  | none => rw [scanNumBody_none neg hi] at h; exact absurd h (by simp)
  | some p =>
    obtain ⟨ids, r1⟩ := p
    rw [scanNumBody_some neg hi] at h
    obtain ⟨hA, hB⟩ := (Prod.mk.injEq _ _ _ _).mp ((Option.some.injEq _ _).mp h)
    cases r1 with
    | nil => simp [scanFracDigits, scanExpPart] at hB
    | cons c1 r1' =>
      have hiext := scanIntDigits_ext t hi
      by_cases hdot : c1 = '.'
      · subst hdot
        by_cases hfz : (scanDigits r1').1 = []
        · have hfp : scanFracDigits ('.' :: r1') = ([], '.' :: r1') := by
            rw [scanFracDigits_cons, if_pos rfl, if_pos hfz]
          rw [hfp] at hA hB
          rw [scanExpPart_not_e _ _ (by decide)] at hA hB
          obtain ⟨h1, h2⟩ := (List.cons.injEq _ _ _ _).mp hB
          subst h1
          simp [numSafeChar] at hc
        · have hfp : scanFracDigits ('.' :: r1') = scanDigits r1' := by
            rw [scanFracDigits_cons, if_pos rfl, if_neg hfz]
          rw [hfp] at hA hB
          cases hsd : (scanDigits r1').2 with
          | nil =>
            rw [hsd] at hB
            simp [scanExpPart] at hB
          | cons c2 r2' =>
            rw [hsd] at hA hB
            have hfull : scanDigits r1' = ((scanDigits r1').1, c2 :: r2') := by
              rw [← hsd]
            have hdext := scanDigits_ext t hfull
            have hpair : scanExpPart (c2 :: r2')
                = ((scanExpPart (c2 :: r2')).1, c :: r) := by
              rw [← hB]
            have heext := scanExpPart_ext t hpair hc
            rw [scanNumBody_some neg hiext]
            have hfpext : scanFracDigits ('.' :: (r1' ++ t))
                = ((scanDigits r1').1, c2 :: (r2' ++ t)) := by
              rw [scanFracDigits_cons, if_pos rfl, hdext,
                if_neg (by simpa using hfz)]
            rw [hfpext]
            dsimp only
            rw [show c2 :: (r2' ++ t) = (c2 :: r2') ++ t from rfl, heext]
            dsimp only
            rw [hA]
      · have hfp : scanFracDigits (c1 :: r1') = ([], c1 :: r1') := by
          rw [scanFracDigits_cons, if_neg hdot]
        rw [hfp] at hA hB
        dsimp only at hA hB
        have hpair : scanExpPart (c1 :: r1')
            = ((scanExpPart (c1 :: r1')).1, c :: r) := by
          rw [← hB]
        have heext := scanExpPart_ext t hpair hc
        rw [scanNumBody_some neg hiext]
        have hfpext : scanFracDigits (c1 :: (r1' ++ t)) = ([], c1 :: (r1' ++ t)) := by
          rw [scanFracDigits_cons, if_neg hdot]
        rw [hfpext]
        dsimp only
        rw [show c1 :: (r1' ++ t) = (c1 :: r1') ++ t from rfl, heext]
        dsimp only
        rw [hA]

/-- Unfolding of `scanNumber` at a cons. -/
theorem scanNumber_cons (c0 : Char) (s0 : List Char) :
    scanNumber (c0 :: s0) =
      if c0 = '-' then scanNumBody true s0 else scanNumBody false (c0 :: s0) := rfl

theorem scanNumber_ext {s : List Char} {q : Q2} {c : Char} {r : List Char}
    (t : List Char)
    (h : scanNumber s = some (q, c :: r)) (hc : numSafeChar c = true) :
    scanNumber (s ++ t) = some (q, c :: (r ++ t)) := by
  cases s with
  | nil => simp [scanNumber] at h
  | cons c0 s0 =>
    rw [scanNumber_cons] at h
    by_cases hneg : c0 = '-'
    · rw [if_pos hneg] at h
      rw [List.cons_append, scanNumber_cons, if_pos hneg]
      exact scanNumBody_ext t h hc
    · rw [if_neg hneg] at h
      rw [List.cons_append, scanNumber_cons, if_neg hneg]
      rw [show c0 :: (s0 ++ t) = (c0 :: s0) ++ t from rfl]
      exact scanNumBody_ext t h hc

/-! ## Extension/monotonicity of the JSON value scanner -/

theorem startsWithL_length {pat s : List Char} (h : startsWithL pat s = true) :
    pat.length ≤ s.length := by
  induction pat generalizing s with
  | nil => simp
  | cons p ps ih =>
    cases s with
    | nil => simp [startsWithL] at h
    | cons c cs =>
      simp only [startsWithL, Bool.and_eq_true] at h
      simpa using ih h.2

theorem startsWithL_append {pat s : List Char} (t : List Char)
    (h : startsWithL pat s = true) : startsWithL pat (s ++ t) = true := by
  induction pat generalizing s with
  | nil => rfl
  | cons p ps ih =>
    cases s with
    | nil => simp [startsWithL] at h
    | cons c cs =>
      simp only [startsWithL, Bool.and_eq_true] at h
      simp only [List.cons_append, startsWithL, Bool.and_eq_true]
      exact ⟨h.1, ih h.2⟩

theorem wsSafe {c : Char} (h : isWsChar c = true) : numSafeChar c = true := by
  simp only [isWsChar, decide_eq_true_eq, Bool.or_eq_true] at h
  rcases h with h | h | h | h <;> subst h <;> decide

/-- Fuel-0 and empty-input dead ends of `parseF`. -/
theorem parseF_zero (m : PM) (s : List Char) : parseF 0 m s = none := rfl

theorem parseF_val_nil : ∀ f : Nat, parseF f .val [] = none
  | 0 => rfl
  | _ + 1 => rfl

theorem parseF_objTail_nil : ∀ f : Nat, parseF f .objTail [] = none
  | 0 => rfl
  | _ + 1 => rfl

/-- One-step unfolding of the array-tail state. -/
theorem parseF_arrTail_unfold (f : Nat) (s : List Char) :
    parseF (f + 1) .arrTail s =
      match parseF f .val s with
      | none => none
      | some (v, r1) =>
        match skipWs r1 with
        | [] => none
        | d :: r2 =>
          if d = ',' then
            match parseF f .arrTail (skipWs r2) with
            | some (.arr xs, r3) => some (.arr (v :: xs), r3)
            | _ => none
          else if d = ']' then some (.arr [v], r2)
          else none := rfl

/-- One-step unfolding of the value state at a cons. -/
theorem parseF_val_cons (f : Nat) (c : Char) (rest : List Char) :
    parseF (f + 1) .val (c :: rest) =
      if c = '{' then
        match skipWs rest with
        | [] => parseF f .objTail []
        | d :: r0 =>
          if d = '}' then some (.obj [], r0) else parseF f .objTail (d :: r0)
      else if c = '[' then
        match skipWs rest with
        | [] => parseF f .arrTail []
        | d :: r0 =>
          if d = ']' then some (.arr [], r0) else parseF f .arrTail (d :: r0)
      else if c = '"' then
        match scanStr rest with
        | none => none
        | some (cs, r) => some (.str cs, r)
      else if c = 't' then
        if startsWithL "true".data (c :: rest) then some (.bool true, rest.drop 3)
        else none
      else if c = 'f' then
        if startsWithL "false".data (c :: rest) then some (.bool false, rest.drop 4)
        else none
      else if c = 'n' then
        if startsWithL "null".data (c :: rest) then some (.null, rest.drop 3)
        else none
      else
        match scanNumber (c :: rest) with
        | none => none
        | some (q, r) => some (.num q, r) := rfl

/-- One-step unfolding of the object-tail state at a cons. -/
theorem parseF_objTail_cons (f : Nat) (c : Char) (rest : List Char) :
    parseF (f + 1) .objTail (c :: rest) =
      (if c = '"' then
        match scanStr rest with
        | none => none
        | some (k, r1) =>
          match skipWs r1 with
          | [] => none
          | d :: r2 =>
            if d = ':' then
              match parseF f .val (skipWs r2) with
              | none => none
              | some (v, r3) =>
                match skipWs r3 with
                | [] => none
                | d2 :: r4 =>
                  if d2 = ',' then
                    match parseF f .objTail (skipWs r4) with
                    | some (.obj kvs, r5) => some (.obj ((k, v) :: kvs), r5)
                    | _ => none
                  else if d2 = '}' then some (.obj [(k, v)], r4)
                  else none
            else none
      else none) := rfl

theorem parseF_arrTail_nil : ∀ f : Nat, parseF f .arrTail [] = none
  | 0 => rfl
  | f + 1 => by
    rw [parseF_arrTail_unfold, parseF_val_nil f]

/-- The side condition under which a scanned value extends on the right:
a number result must be followed by a character that cannot extend the
numeric literal (anything else is delimited by its own syntax). -/
def numHeadOK : PyVal → List Char → Prop
  | .num _, [] => False
  | .num _, c :: _ => numSafeChar c = true
  | _, _ => True

theorem numHeadOK_of_head {v : PyVal} {r1 r2 : List Char} {d : Char}
    (hw : skipWs r1 = d :: r2) (hd : numSafeChar d = true) :
    numHeadOK v r1 := by
  cases v with
  | num q =>
    obtain ⟨c0, s0, he, hc0⟩ := skipWs_head hw
    subst he
    show numSafeChar c0 = true
    rcases hc0 with hc0 | hc0
    · exact wsSafe hc0
    · subst hc0; exact hd
  | null => trivial
  | bool b => trivial
  | str s => trivial
  | arr xs => trivial
  | obj kvs => trivial

theorem parseF_extMono :
    ∀ f g : Nat, ∀ (mode : PM) (s : List Char) (v : PyVal) (r t : List Char),
      f ≤ g → parseF f mode s = some (v, r) → numHeadOK v r →
      parseF g mode (s ++ t) = some (v, r ++ t) := by
  intro f
  induction f with
  | zero =>
    intro g mode s v r t _ h _
    rw [parseF_zero] at h
    exact absurd h (by simp)
  | succ f ih =>
    intro g mode s v r t hfg h hok
    obtain ⟨g', rfl⟩ : ∃ g', g = g' + 1 := ⟨g - 1, by omega⟩
    have hfg' : f ≤ g' := by omega
    cases mode with
    | val =>
      cases s with
      | nil => rw [parseF_val_nil] at h; exact absurd h (by simp)
      | cons c rest =>
        rw [parseF_val_cons] at h
        rw [List.cons_append, parseF_val_cons]
        by_cases hc1 : c = '{'
        · rw [if_pos hc1] at h ⊢
          cases hw : skipWs rest with
          | nil =>
            rw [hw] at h
            dsimp only at h
            rw [parseF_objTail_nil f] at h
            exact absurd h (by simp)
          | cons d r0 =>
            rw [hw] at h
            dsimp only at h
            rw [skipWs_ext t hw]
            dsimp only
            by_cases hd : d = '}'
            · rw [if_pos hd] at h ⊢
              obtain ⟨hA, hB⟩ :=
                (Prod.mk.injEq _ _ _ _).mp ((Option.some.injEq _ _).mp h)
              subst hA hB
              rfl
            · rw [if_neg hd] at h ⊢
              exact ih g' .objTail (d :: r0) v r t hfg' h hok
        · rw [if_neg hc1] at h ⊢
          by_cases hc2 : c = '['
          · rw [if_pos hc2] at h ⊢
            cases hw : skipWs rest with
            | nil =>
              rw [hw] at h
              dsimp only at h
              rw [parseF_arrTail_nil f] at h
              exact absurd h (by simp)
            | cons d r0 =>
              rw [hw] at h
              dsimp only at h
              rw [skipWs_ext t hw]
              dsimp only
              by_cases hd : d = ']'
              · rw [if_pos hd] at h ⊢
                obtain ⟨hA, hB⟩ :=
                  (Prod.mk.injEq _ _ _ _).mp ((Option.some.injEq _ _).mp h)
                subst hA hB
                rfl
              · rw [if_neg hd] at h ⊢
                exact ih g' .arrTail (d :: r0) v r t hfg' h hok
          · rw [if_neg hc2] at h ⊢
            by_cases hc3 : c = '"'
            · rw [if_pos hc3] at h ⊢
              cases hs : scanStr rest with
              | none => rw [hs] at h; exact absurd h (by simp)
              | some p =>
                obtain ⟨cs, rs⟩ := p
                rw [hs] at h
                dsimp only at h
                obtain ⟨hA, hB⟩ :=
                  (Prod.mk.injEq _ _ _ _).mp ((Option.some.injEq _ _).mp h)
                subst hA hB
                rw [scanStr_ext rest cs rs t hs]
            · rw [if_neg hc3] at h ⊢
              by_cases hc4 : c = 't'
              · rw [if_pos hc4] at h ⊢
                by_cases htw : startsWithL "true".data (c :: rest) = true
                · rw [if_pos htw] at h
                  obtain ⟨hA, hB⟩ :=
                    (Prod.mk.injEq _ _ _ _).mp ((Option.some.injEq _ _).mp h)
                  subst hA hB
                  rw [if_pos (show startsWithL "true".data (c :: (rest ++ t)) = true by
                    rw [← List.cons_append]; exact startsWithL_append t htw)]
                  have hlen : 3 ≤ rest.length := by
                    have := startsWithL_length htw
                    simp at this
                    omega
                  rw [List.drop_append_of_le_length hlen]
                · rw [if_neg htw] at h; exact absurd h (by simp)
              · rw [if_neg hc4] at h ⊢
                by_cases hc5 : c = 'f'
                · rw [if_pos hc5] at h ⊢
                  by_cases htw : startsWithL "false".data (c :: rest) = true
                  · rw [if_pos htw] at h
                    obtain ⟨hA, hB⟩ :=
                      (Prod.mk.injEq _ _ _ _).mp ((Option.some.injEq _ _).mp h)
                    subst hA hB
                    rw [if_pos (show startsWithL "false".data (c :: (rest ++ t)) = true by
                      rw [← List.cons_append]; exact startsWithL_append t htw)]
                    have hlen : 4 ≤ rest.length := by
                      have := startsWithL_length htw
                      simp at this
                      omega
                    rw [List.drop_append_of_le_length hlen]
                  · rw [if_neg htw] at h; exact absurd h (by simp)
                · rw [if_neg hc5] at h ⊢
                  by_cases hc6 : c = 'n'
                  · rw [if_pos hc6] at h ⊢
                    by_cases htw : startsWithL "null".data (c :: rest) = true
                    · rw [if_pos htw] at h
                      obtain ⟨hA, hB⟩ :=
                        (Prod.mk.injEq _ _ _ _).mp ((Option.some.injEq _ _).mp h)
                      subst hA hB
                      rw [if_pos (show startsWithL "null".data (c :: (rest ++ t)) = true by
                        rw [← List.cons_append]; exact startsWithL_append t htw)]
                      have hlen : 3 ≤ rest.length := by
                        have := startsWithL_length htw
                        simp at this
                        omega
                      rw [List.drop_append_of_le_length hlen]
                    · rw [if_neg htw] at h; exact absurd h (by simp)
                  · rw [if_neg hc6] at h ⊢
                    cases hn : scanNumber (c :: rest) with
                    | none => rw [hn] at h; exact absurd h (by simp)
                    | some p =>
                      obtain ⟨q, rn⟩ := p
                      rw [hn] at h
                      dsimp only at h
                      obtain ⟨hA, hB⟩ :=
                        (Prod.mk.injEq _ _ _ _).mp ((Option.some.injEq _ _).mp h)
                      subst hA hB
                      cases rn with
                      | nil => exact absurd hok (by simp [numHeadOK])
                      | cons c2 r2 =>
                        have hsafe : numSafeChar c2 = true := hok
                        have hne := scanNumber_ext t hn hsafe
                        rw [show c :: (rest ++ t) = (c :: rest) ++ t from rfl, hne]
                        rfl
    | arrTail =>
      rw [parseF_arrTail_unfold] at h
      rw [parseF_arrTail_unfold]
      cases hv : parseF f .val s with
      | none => rw [hv] at h; exact absurd h (by simp)
      | some p =>
        obtain ⟨v0, r1⟩ := p
        rw [hv] at h
        dsimp only at h
        cases hw : skipWs r1 with
        | nil => rw [hw] at h; exact absurd h (by simp)
        | cons d r2 =>
          rw [hw] at h
          dsimp only at h
          by_cases hd : d = ','
          · rw [if_pos hd] at h
            cases ha : parseF f .arrTail (skipWs r2) with
            | none => rw [ha] at h; exact absurd h (by simp)
            | some pa =>
              obtain ⟨va, r3⟩ := pa
              rw [ha] at h
              cases va with
              | arr xs =>
                dsimp only at h
                obtain ⟨hA, hB⟩ :=
                  (Prod.mk.injEq _ _ _ _).mp ((Option.some.injEq _ _).mp h)
                subst hA hB
                have hv0ok : numHeadOK v0 r1 :=
                  numHeadOK_of_head hw (by rw [hd]; decide)
                have hvext := ih g' .val s v0 r1 t hfg' hv hv0ok
                rw [hvext]
                dsimp only
                rw [skipWs_ext t hw]
                dsimp only
                rw [if_pos hd]
                cases hw2 : skipWs r2 with
                | nil =>
                  rw [hw2, parseF_arrTail_nil f] at ha
                  exact absurd ha (by simp)
                | cons e r2' =>
                  have haext := ih g' .arrTail (skipWs r2) (.arr xs) r3 t hfg' ha trivial
                  rw [hw2, List.cons_append] at haext
                  rw [skipWs_ext t hw2, haext]
              | null => dsimp only at h; exact absurd h (by simp)
              | bool b => dsimp only at h; exact absurd h (by simp)
              | num q => dsimp only at h; exact absurd h (by simp)
              | str cs => dsimp only at h; exact absurd h (by simp)
              | obj kvs => dsimp only at h; exact absurd h (by simp)
          · rw [if_neg hd] at h
            by_cases hd2 : d = ']'
            · rw [if_pos hd2] at h
              obtain ⟨hA, hB⟩ :=
                (Prod.mk.injEq _ _ _ _).mp ((Option.some.injEq _ _).mp h)
              subst hA hB
              have hv0ok : numHeadOK v0 r1 :=
                numHeadOK_of_head hw (by rw [hd2]; decide)
              have hvext := ih g' .val s v0 r1 t hfg' hv hv0ok
              rw [hvext]
              dsimp only
              rw [skipWs_ext t hw]
              dsimp only
              rw [if_neg hd, if_pos hd2]
            · rw [if_neg hd2] at h; exact absurd h (by simp)
    | objTail =>
      cases s with
      | nil => rw [parseF_objTail_nil] at h; exact absurd h (by simp)
      | cons c rest =>
        rw [parseF_objTail_cons] at h
        rw [List.cons_append, parseF_objTail_cons]
        by_cases hc : c = '"'
        · rw [if_pos hc] at h ⊢
          cases hs : scanStr rest with
          | none => rw [hs] at h; exact absurd h (by simp)
          | some p =>
            obtain ⟨k, r1⟩ := p
            rw [hs] at h
            dsimp only at h
            rw [scanStr_ext rest k r1 t hs]
            dsimp only
            cases hw : skipWs r1 with
            | nil => rw [hw] at h; exact absurd h (by simp)
            | cons d r2 =>
              rw [hw] at h
              dsimp only at h
              rw [skipWs_ext t hw]
              dsimp only
              by_cases hd : d = ':'
              · rw [if_pos hd] at h ⊢
                cases hv : parseF f .val (skipWs r2) with
                | none => rw [hv] at h; exact absurd h (by simp)
                | some pv =>
                  obtain ⟨v0, r3⟩ := pv
                  rw [hv] at h
                  dsimp only at h
                  cases hw3 : skipWs r3 with
                  | nil => rw [hw3] at h; exact absurd h (by simp)
                  | cons d2 r4 =>
                    rw [hw3] at h
                    dsimp only at h
                    cases hw2 : skipWs r2 with
                    | nil =>
                      rw [hw2, parseF_val_nil f] at hv
                      exact absurd hv (by simp)
                    | cons e r2' =>
                      by_cases hd2 : d2 = ','
                      · rw [if_pos hd2] at h
                        cases ho : parseF f .objTail (skipWs r4) with
                        | none => rw [ho] at h; exact absurd h (by simp)
                        | some po =>
                          obtain ⟨vo, r5⟩ := po
                          rw [ho] at h
                          cases vo with
                          | obj kvs =>
                            dsimp only at h
                            obtain ⟨hA, hB⟩ :=
                              (Prod.mk.injEq _ _ _ _).mp ((Option.some.injEq _ _).mp h)
                            subst hA hB
                            have hv0ok : numHeadOK v0 r3 :=
                              numHeadOK_of_head hw3 (by rw [hd2]; decide)
                            have hvext := ih g' .val (skipWs r2) v0 r3 t hfg' hv hv0ok
                            rw [hw2, List.cons_append] at hvext
                            rw [skipWs_ext t hw2, hvext]
                            dsimp only
                            rw [skipWs_ext t hw3]
                            dsimp only
                            rw [if_pos hd2]
                            cases hw4 : skipWs r4 with
                            | nil =>
                              rw [hw4, parseF_objTail_nil f] at ho
                              exact absurd ho (by simp)
                            | cons e2 r4' =>
                              have hoext := ih g' .objTail (skipWs r4) (.obj kvs) r5 t
                                hfg' ho trivial
                              rw [hw4, List.cons_append] at hoext
                              rw [skipWs_ext t hw4, hoext]
                          | null => dsimp only at h; exact absurd h (by simp)
                          | bool b => dsimp only at h; exact absurd h (by simp)
                          | num q => dsimp only at h; exact absurd h (by simp)
                          | str cs => dsimp only at h; exact absurd h (by simp)
                          | arr xs => dsimp only at h; exact absurd h (by simp)
                      · rw [if_neg hd2] at h
                        by_cases hd3 : d2 = '}'
                        · rw [if_pos hd3] at h
                          obtain ⟨hA, hB⟩ :=
                            (Prod.mk.injEq _ _ _ _).mp ((Option.some.injEq _ _).mp h)
                          subst hA hB
                          have hv0ok : numHeadOK v0 r3 :=
                            numHeadOK_of_head hw3 (by rw [hd3]; decide)
                          have hvext := ih g' .val (skipWs r2) v0 r3 t hfg' hv hv0ok
                          rw [hw2, List.cons_append] at hvext
                          rw [skipWs_ext t hw2, hvext]
                          dsimp only
                          rw [skipWs_ext t hw3]
                          dsimp only
                          rw [if_neg hd2, if_pos hd3]
                        · rw [if_neg hd3] at h; exact absurd h (by simp)
              · rw [if_neg hd] at h; exact absurd h (by simp)
        · rw [if_neg hc] at h; exact absurd h (by simp)

/-- Extension of `raw_decode`: a parse that consumed its whole input and
did not produce a bare number also succeeds, unchanged, on any
right-extended input, consuming exactly the original prefix. -/
theorem raw_decode_ext {s : List Char} {v : PyVal} (t : List Char)
    (h : raw_decode s = some (v, [])) (hv : isNumV v = false) :
    raw_decode (s ++ t) = some (v, t) := by
  have hok : numHeadOK v [] := by
    cases v with
    | num q => simp [isNumV] at hv
    | null => trivial
    | bool b => trivial
    | str cs => trivial
    | arr xs => trivial
    | obj kvs => trivial
  have hfuel : 3 * s.length + 3 ≤ 3 * (s ++ t).length + 3 := by
    simp [List.length_append]
  have hext := parseF_extMono (3 * s.length + 3) (3 * (s ++ t).length + 3)
    .val s v [] t hfuel h hok
  simpa [raw_decode] using hext

/-! ## Lemmas about the decoding pipeline -/

theorem unpackF32s_length : ∀ raw : List Nat,
    (unpackF32s raw).length = raw.length / 4
  | [] => by rfl
  | [a] => by
    show ([] : List PyFloat).length = [a].length / 4
    simp
  | [a, b] => by
    show ([] : List PyFloat).length = [a, b].length / 4
    simp
  | [a, b, c] => by
    show ([] : List PyFloat).length = [a, b, c].length / 4
    simp
  | b0 :: b1 :: b2 :: b3 :: rest => by
    show (f32FromLE b0 b1 b2 b3 :: unpackF32s rest).length
      = (b0 :: b1 :: b2 :: b3 :: rest).length / 4
    simp only [List.length_cons, unpackF32s_length rest]
    omega

theorem mapRound_nums : ∀ qs : List Q2,
    mapRound (qs.map PyVal.num) = some (qs.map (fun q => PyFloat.finite (rnd2 q)))
  | [] => rfl
  | q :: rest => by
    simp only [List.map_cons, mapRound, roundVal, mapRound_nums rest]

theorem packLE_length : ∀ ws : List Nat, (packLE ws).length = 4 * ws.length
  | [] => rfl
  | w :: ws => by
    simp only [packLE, toLEBytes, List.length_append, packLE_length ws,
      List.length_cons, List.length_nil]
    omega

theorem unpackF32s_packLE : ∀ ws : List Nat, (∀ w ∈ ws, w < 2 ^ 32) →
    unpackF32s (packLE ws) = ws.map f32ValOfBits
  | [], _ => rfl
  | w :: ws, h => by
    have hw : w < 2 ^ 32 := h w (by simp)
    have hrec := unpackF32s_packLE ws (fun x hx => h x (by simp [hx]))
    show unpackF32s (toLEBytes w ++ packLE ws) = _
    simp only [toLEBytes, List.cons_append, List.nil_append]
    show f32FromLE (w % 256) (w / 256 % 256) (w / 65536 % 256)
        (w / 16777216 % 256) :: unpackF32s (packLE ws) = _
    rw [hrec]
    simp only [List.map_cons]
    have harg : w % 256 + 256 * (w / 256 % 256) + 65536 * (w / 65536 % 256)
        + 16777216 * (w / 16777216 % 256) = w := by omega
    rw [f32FromLE, harg]

/-! ## Lemmas about the trace loop -/

theorem processTrace_skip (kvs : List (List Char × PyVal))
    (hbd : isBdataObj (getDefault kvs "x".data (.obj [])) = false)
    (harr : isArrV (getDefault kvs "x".data (.obj [])) = false) :
    processTrace (.obj kvs)
      = .skip (getDefault kvs "name".data (.str "unknown".data)) := by
  cases hxv : getDefault kvs "x".data (.obj []) with
  | arr xs => rw [hxv] at harr; simp [isArrV] at harr
  | null => simp only [processTrace]; rw [hxv]; rfl
  | bool b => simp only [processTrace]; rw [hxv]; rfl
  | num q => simp only [processTrace]; rw [hxv]; rfl
  | str cs => simp only [processTrace]; rw [hxv]; rfl
  | obj okvs =>
    rw [hxv] at hbd
    simp only [processTrace]
    rw [hxv]
    simp [hbd]

theorem processTrace_plain (kvs : List (List Char × PyVal)) (qx qy qz : List Q2)
    (knm : PyKey)
    (hx : getDefault kvs "x".data (.obj []) = .arr (qx.map PyVal.num))
    (hy : getDefault kvs "y".data (.obj []) = .arr (qy.map PyVal.num))
    (hz : getDefault kvs "z".data (.obj []) = .arr (qz.map PyVal.num))
    (hk : toKey (getDefault kvs "name".data (.str "unknown".data)) = some knm) :
    processTrace (.obj kvs) = .ok knm
      ⟨qx.map (fun q => PyFloat.finite (rnd2 q)),
       qy.map (fun q => PyFloat.finite (rnd2 q)),
       qz.map (fun q => PyFloat.finite (rnd2 q))⟩ := by
  simp only [processTrace]
  rw [hx, hy, hz]
  rw [if_neg (show ¬ isBdataObj (PyVal.arr (qx.map PyVal.num)) = true by
    rw [show isBdataObj (PyVal.arr (qx.map PyVal.num)) = false from rfl]
    simp)]
  dsimp only
  rw [show plainDecode (PyVal.arr (qx.map PyVal.num))
      = mapRound (qx.map PyVal.num) from rfl]
  rw [show plainDecode (PyVal.arr (qy.map PyVal.num))
      = mapRound (qy.map PyVal.num) from rfl]
  rw [show plainDecode (PyVal.arr (qz.map PyVal.num))
      = mapRound (qz.map PyVal.num) from rfl]
  rw [mapRound_nums qx, mapRound_nums qy, mapRound_nums qz]
  dsimp only
  rw [hk]

/-! ## Lemmas about the output mapping -/

theorem lookupK_overwrite (k : PyKey) (v : Rec3) : ∀ m : List (PyKey × Rec3),
    m.any (fun p => p.1 = k) = true →
    lookupK (m.map (fun p => if p.1 = k then (k, v) else p)) k = some v
  | [], h => by simp at h
  | p0 :: m', h => by
    obtain ⟨k0, v0⟩ := p0
    simp only [List.map_cons]
    by_cases hp : k0 = k
    · rw [if_pos (show (k0, v0).1 = k from hp)]
      simp [lookupK]
    · rw [if_neg (show ¬(k0, v0).1 = k from hp)]
      show lookupK ((k0, v0) :: m'.map fun p => if p.1 = k then (k, v) else p) k
        = some v
      rw [lookupK, if_neg hp]
      refine lookupK_overwrite k v m' ?_
      simp only [List.any_cons] at h
      simpa [hp] using h

theorem lookupK_append (k : PyKey) (v : Rec3) : ∀ m : List (PyKey × Rec3),
    m.any (fun p => p.1 = k) = false →
    lookupK (m ++ [(k, v)]) k = some v
  | [], _ => by simp [lookupK]
  | p0 :: m', h => by
    obtain ⟨k0, v0⟩ := p0
    simp only [List.any_cons, Bool.or_eq_false_iff] at h
    show lookupK ((k0, v0) :: (m' ++ [(k, v)])) k = some v
    rw [lookupK, if_neg (by simpa using h.1)]
    exact lookupK_append k v m' h.2

/-- `result[name] = rec` followed by a lookup of `name` yields `rec`:
in particular a later trace with the same name overwrites an earlier
one. -/
theorem lookupK_dictInsert (m : List (PyKey × Rec3)) (k : PyKey) (v : Rec3) :
    lookupK (dictInsert m k v) k = some v := by
  rw [dictInsert]
  by_cases hany : m.any (fun p => p.1 = k) = true
  · rw [if_pos hany]
    exact lookupK_overwrite k v m hany
  · rw [if_neg hany]
    refine lookupK_append k v m ?_
    revert hany
    cases m.any (fun p => p.1 = k) <;> simp

/-! ## Concrete documents and inputs used by the claims -/

/-- A document with two occurrences of the marker (one inside quoted
"library" text), whose data array follows the last occurrence. -/
def docTwoMarkers : List Char :=
  "var lib = \"Plotly.newPlot(\";Plotly.newPlot(\"d\",[\x7b\"customdata\":[],\"x\":[1.0]\x7d]);".data

/-- Three traces; the second one's `x` field is `null`. -/
def docSkipX : List Char :=
  "Plotly.newPlot(\"id\",[\x7b\"name\":\"a\",\"x\":[1.0],\"y\":[2.0],\"z\":[3.0]\x7d,\x7b\"name\":\"b\",\"x\":null,\"y\":[2.5],\"z\":[3.5]\x7d,\x7b\"name\":\"c\",\"x\":[4.0],\"y\":[5.0],\"z\":[6.0]\x7d],\x7b\x7d);".data

/-- Three traces; the second one has a well-formed `x` but `y` is `null`. -/
def docBadY : List Char :=
  "Plotly.newPlot(\"id\",[\x7b\"name\":\"a\",\"x\":[1.0],\"y\":[2.0],\"z\":[3.0]\x7d,\x7b\"name\":\"b\",\"x\":[1.0],\"y\":null,\"z\":[3.5]\x7d,\x7b\"name\":\"c\",\"x\":[4.0],\"y\":[5.0],\"z\":[6.0]\x7d],\x7b\x7d);".data

/-- A document containing the marker but no JSON start pattern after it. -/
def docNoBracket : List Char := "Plotly.newPlot(7".data

/-- The end-to-end example document: one `Plotly.newPlot` call whose only
trace is `{"customdata":[],"name":"cat","x":[1.005,2.0],"y":[0.0,0.0],
"z":[0.0,0.0]}`. -/
def docEndToEnd : List Char :=
  "<div></div><script>Plotly.newPlot(\"g1\",[\x7b\"customdata\":[],\"name\":\"cat\",\"x\":[1.005,2.0],\"y\":[0.0,0.0],\"z\":[0.0,0.0]\x7d],\x7b\"responsive\":true\x7d);</script>".data

/-- Number of positions at which `pat` occurs in `s`. -/
def countOcc (s pat : List Char) : Nat :=
  ((List.range (s.length + 1)).filter (fun i => matchesAt s pat i)).length

/-- Every occurrence of the marker in `content` lies at or before `off`. -/
def lastOccLE (content : List Char) (off : Nat) : Prop :=
  ∀ k, matchesAt content marker k = true → k ≤ off

/-! ## The claims -/

/-- C1: for a document containing at least two occurrences of
`Plotly.newPlot(`, any offset returned by the trace locator lies at or
after the position of the final occurrence of the marker — every marker
occurrence is at or before the returned offset, so the parsed trace array
is the one following the last occurrence. -/
theorem c1_locator_last_marker (content : List Char)
    (htwo : 2 ≤ countOcc content marker) (off : Nat)
    (hoff : locateOffset content = some off) : lastOccLE content off := by
  intro k hk
  unfold locateOffset at hoff
  cases hrf : rfind content marker with
  | none => rw [hrf] at hoff; exact absurd hoff (by simp)
  | some idx =>
    rw [hrf] at hoff
    dsimp only at hoff
    cases hbs : bracketStart (content.drop idx) with
    | ofNat b =>
      rw [hbs] at hoff
      dsimp only at hoff
      have hoff2 : idx + b = off := (Option.some.injEq _ _).mp hoff
      have hmne : marker ≠ [] := by decide
      have hlen := matchesAt_le_length hk hmne
      have hki := rfindFrom_ge content.length k idx hk hlen hrf
      omega
    | negSucc n => rw [hbs] at hoff; exact absurd hoff (by simp)

/-- C1 witness: a concrete document with two marker occurrences (at 11 and
28); the locator returns offset 47 and every occurrence is ≤ 47. -/
theorem c1_locator_last_marker_witness : lastOccLE docTwoMarkers 47 :=
  c1_locator_last_marker docTwoMarkers (by decide) 47 (by rfl)

/-- C2 (amended): the recoverable skip is decided by the shape of the `x`
field alone.  (a) Every parsed trace object whose `x` field is neither a
plain array nor a packed-binary object is skipped with a diagnostic,
whatever its `y`/`z` hold; (b) on the three-trace input whose second
trace has `x: null`, the run completes with exit status 0, the output
mapping holds exactly the entries of traces 1 and 3, and the diagnostic
line for the skipped trace is printed.  (A malformed `y` or `z` under a
well-formed `x` is NOT skipped — see the counterexample.) -/
theorem c2_skip_decided_by_x_only :
    (∀ kvs : List (List Char × PyVal),
        isBdataObj (getDefault kvs "x".data (.obj [])) = false →
        isArrV (getDefault kvs "x".data (.obj [])) = false →
        processTrace (.obj kvs)
          = .skip (getDefault kvs "name".data (.str "unknown".data)))
    ∧ outMapping (runMain ⟨some docSkipX, none⟩).1
        = some [(.str "a".data, ⟨[.finite ⟨1, 1⟩], [.finite ⟨2, 1⟩], [.finite ⟨3, 1⟩]⟩),
                (.str "c".data, ⟨[.finite ⟨4, 1⟩], [.finite ⟨5, 1⟩], [.finite ⟨6, 1⟩]⟩)]
    ∧ exitCode (runMain ⟨some docSkipX, none⟩).1 = some 0
    ∧ skipLines (outLog (runMain ⟨some docSkipX, none⟩).1) = [.str "b".data] :=
  ⟨processTrace_skip, rfl, rfl, rfl⟩

/-- C2 witness: a concrete nameless-irrelevant trace with `x: null` is
skipped by the loop body. -/
theorem c2_skip_decided_by_x_only_witness :
    processTrace (.obj [("name".data, .str "b".data), ("x".data, .null)])
      = .skip (.str "b".data) :=
  c2_skip_decided_by_x_only.1
    [("name".data, .str "b".data), ("x".data, .null)] rfl rfl

/-- C2 counterexample: on a three-trace input whose second trace has a
plain `x` but `y: null`, the claimed behavior (skip the trace, write the
other two entries, exit 0) does not occur — the run crashes with an
unhandled `TypeError`, writes nothing, and its exit status is not 0. -/
theorem c2_counterexample :
    (runMain ⟨some docBadY, some "old".data⟩).1 = .crash
    ∧ (runMain ⟨some docBadY, some "old".data⟩).2.output = some "old".data
    ∧ exitCode (runMain ⟨some docBadY, some "old".data⟩).1 = none :=
  ⟨rfl, rfl, rfl⟩

/-- C3: evaluation at the failing input `"Plotly.newPlot(7"`.  The marker
is present and no JSON start pattern follows it, yet `extract_traces` does
not fail: `bracket_start` is the unchecked `-1` sentinel, the Python slice
`after[-1:]` keeps exactly the final character `"7"`, and `raw_decode`
happily returns the number 7 — no `NotFoundError`/`ValueError` is
raised. -/
theorem c3_no_bracket_parses_last_char :
    rfind docNoBracket marker = some 0
    ∧ bracketStart docNoBracket = -1
    ∧ pySlice docNoBracket (-1) = "7".data
    ∧ extract_tracesM docNoBracket = .ok (.num ⟨7, 1⟩) :=
  ⟨rfl, rfl, rfl, rfl⟩

/-- C4: when `data["bdata"]` is base64 text decoding to a byte buffer
`raw`, the binary decoder returns exactly `raw.length / 4` numbers (each a
little-endian float32, rounded) when `4 ∣ raw.length`; otherwise
`struct.unpack` fails and decoding yields no (truncated) result at all. -/
theorem c4_unpack_exact_length (data : PyVal) (bs : List Char)
    (raw : List Nat)
    (h1 : getItem data "bdata".data = some (.str bs))
    (h2 : b64decode bs = some raw) :
    (raw.length % 4 = 0 →
      decode_binary_array data = some ((unpackF32s raw).map roundF)
      ∧ ((unpackF32s raw).map roundF).length = raw.length / 4)
    ∧ (raw.length % 4 ≠ 0 → decode_binary_array data = none) := by
  constructor
  · intro hm
    constructor
    · simp only [decode_binary_array, h1, h2, if_pos hm]
    · simp [unpackF32s_length raw]
  · intro hm
    simp only [decode_binary_array, h1, h2, if_neg hm]

/-- C4 witness: the packed field `"AACAPw=="` (the 4 bytes of the float32
`1.0`) decodes to exactly one rounded value. -/
theorem c4_unpack_exact_length_witness :
    decode_binary_array (.obj [("bdata".data, .str "AACAPw==".data)])
      = some ((unpackF32s [0, 0, 128, 63]).map roundF)
    ∧ ((unpackF32s [0, 0, 128, 63]).map roundF).length
        = ([0, 0, 128, 63] : List Nat).length / 4 :=
  (c4_unpack_exact_length (.obj [("bdata".data, .str "AACAPw==".data)])
    "AACAPw==".data [0, 0, 128, 63] rfl rfl).1 (by decide)

/-- C5: for a trace whose `x`, `y`, `z` are plain arrays of numbers (and
whose name is hashable), each output coordinate array is the element-wise
2-decimal rounding of the corresponding input array, preserving length and
order. -/
theorem c5_plain_elementwise_rounding (kvs : List (List Char × PyVal))
    (qx qy qz : List Q2) (knm : PyKey)
    (hx : getDefault kvs "x".data (.obj []) = .arr (qx.map PyVal.num))
    (hy : getDefault kvs "y".data (.obj []) = .arr (qy.map PyVal.num))
    (hz : getDefault kvs "z".data (.obj []) = .arr (qz.map PyVal.num))
    (hk : toKey (getDefault kvs "name".data (.str "unknown".data)) = some knm) :
    processTrace (.obj kvs) = .ok knm
      ⟨qx.map (fun q => PyFloat.finite (rnd2 q)),
       qy.map (fun q => PyFloat.finite (rnd2 q)),
       qz.map (fun q => PyFloat.finite (rnd2 q))⟩ :=
  processTrace_plain kvs qx qy qz knm hx hy hz hk

/-- C5 witness: a concrete plain trace, rounded element-wise. -/
theorem c5_plain_elementwise_rounding_witness :
    processTrace (.obj [("name".data, .str "t".data),
        ("x".data, .arr [.num ⟨3, 2⟩]), ("y".data, .arr []),
        ("z".data, .arr [.num ⟨1, 1⟩])])
      = .ok (.str "t".data)
        ⟨([⟨3, 2⟩] : List Q2).map (fun q => PyFloat.finite (rnd2 q)),
         ([] : List Q2).map (fun q => PyFloat.finite (rnd2 q)),
         ([⟨1, 1⟩] : List Q2).map (fun q => PyFloat.finite (rnd2 q))⟩ :=
  c5_plain_elementwise_rounding
    [("name".data, .str "t".data), ("x".data, .arr [.num ⟨3, 2⟩]),
     ("y".data, .arr []), ("z".data, .arr [.num ⟨1, 1⟩])]
    [⟨3, 2⟩] [] [⟨1, 1⟩] (.str "t".data) rfl rfl rfl rfl

/-- C6: packed/plain round-trip equivalence.  For a finite sequence of
float32 bit patterns `ws` with (finite) values `qs`, decoding the packed
encoding (base64 of the little-endian bytes of `ws`) produces exactly
`ws.length` rounded values, and these equal the result of the plain-array
path applied to the same values given directly as a JSON array. -/
theorem c6_packed_plain_equivalence (ws : List Nat) (qs : List Q2)
    (bs : List Char)
    (hw : ∀ w ∈ ws, w < 2 ^ 32)
    (hq : ws.map f32ValOfBits = qs.map PyFloat.finite)
    (hbs : b64decode bs = some (packLE ws)) :
    decode_binary_array (.obj [("bdata".data, .str bs)])
      = some (qs.map (fun q => PyFloat.finite (rnd2 q)))
    ∧ plainDecode (.arr (qs.map PyVal.num))
      = some (qs.map (fun q => PyFloat.finite (rnd2 q)))
    ∧ qs.length = ws.length := by
  have hlen : (packLE ws).length = 4 * ws.length := packLE_length ws
  have hm : (packLE ws).length % 4 = 0 := by omega
  have hup := unpackF32s_packLE ws hw
  refine ⟨?_, ?_, ?_⟩
  · simp only [decode_binary_array,
      show getItem (PyVal.obj [("bdata".data, PyVal.str bs)]) "bdata".data
        = some (.str bs) from rfl, hbs, if_pos hm]
    rw [hup, hq, List.map_map]
    rfl
  · simp only [plainDecode,
      show pyIter (PyVal.arr (qs.map PyVal.num)) = some (qs.map PyVal.num) from rfl]
    exact mapRound_nums qs
  · have hl := congrArg List.length hq
    simp at hl
    omega

/-- C6 witness: the single float32 `1.0` (bits `0x3F800000`), packed as
`"AACAPw=="`, decodes to the same one rounded value as the plain array
`[1.0]`. -/
theorem c6_packed_plain_equivalence_witness :
    decode_binary_array (.obj [("bdata".data, .str "AACAPw==".data)])
      = some (([⟨1, 1⟩] : List Q2).map (fun q => PyFloat.finite (rnd2 q)))
    ∧ plainDecode (.arr (([⟨1, 1⟩] : List Q2).map PyVal.num))
      = some (([⟨1, 1⟩] : List Q2).map (fun q => PyFloat.finite (rnd2 q)))
    ∧ ([⟨1, 1⟩] : List Q2).length = ([1065353216] : List Nat).length :=
  c6_packed_plain_equivalence [1065353216] [⟨1, 1⟩] "AACAPw==".data
    (by decide) rfl rfl

/-- C7 counterexample: the claim fails for bare numbers followed by
extending text.  `"12"` is a complete valid JSON value, but parsing
`"12" ++ "3"` does not return the leading value `12` with the trailing
`"3"` untouched — the maximal-munch number scan absorbs the trailing
character and yields `123`. -/
theorem c7_counterexample :
    raw_decode "12".data = some (.num ⟨12, 1⟩, [])
    ∧ raw_decode ("12".data ++ "3".data) = some (.num ⟨123, 1⟩, [])
    ∧ ¬ raw_decode ("12".data ++ "3".data) = some (.num ⟨12, 1⟩, "3".data) := by
  refine ⟨rfl, rfl, ?_⟩
  intro hcontra
  rw [show raw_decode ("12".data ++ "3".data)
      = some (.num ⟨123, 1⟩, []) from rfl] at hcontra
  simp at hcontra

/-- C7 (amended): for every input beginning with a complete valid JSON
value that is not a bare number — in particular the array of trace objects
parsed by this tool — followed by arbitrary trailing text, the parser
parses exactly that leading value and succeeds, never parsing the trailing
content and never failing because of it. -/
theorem c7_prefix_parse (s t : List Char) (v : PyVal)
    (h : raw_decode s = some (v, [])) (hv : isNumV v = false) :
    raw_decode (s ++ t) = some (v, t) :=
  raw_decode_ext t h hv

/-- C7 witness: the array `[1]` followed by `</script>` parses to exactly
that array, with the tag left unconsumed. -/
theorem c7_prefix_parse_witness :
    raw_decode ("[1]".data ++ "</script>".data)
      = some (.arr [.num ⟨1, 1⟩], "</script>".data) :=
  c7_prefix_parse "[1]".data "</script>".data (.arr [.num ⟨1, 1⟩]) rfl rfl

/-- C8: when the input HTML file does not exist, `main` reports the error
with the resolved path, exits with status 1 before attempting any parse,
and the filesystem — in particular any pre-existing output file — is left
untouched. -/
theorem c8_missing_input (fs : FS) (h : fs.input = none) :
    runMain fs = (.exitErr 1 [.errMissing html_path], fs)
    ∧ exitCode (runMain fs).1 = some 1
    ∧ (runMain fs).2.output = fs.output := by
  obtain ⟨i, o⟩ := fs
  cases i with
  | none => exact ⟨rfl, rfl, rfl⟩
  | some c => exact absurd h (by simp)

/-- C8 witness: with no input file and an existing output file, the run
exits 1 and the old output contents survive. -/
theorem c8_missing_input_witness :
    runMain ⟨none, some "old".data⟩
        = (.exitErr 1 [.errMissing html_path], ⟨none, some "old".data⟩)
    ∧ exitCode (runMain ⟨none, some "old".data⟩).1 = some 1
    ∧ (runMain ⟨none, some "old".data⟩).2.output = some "old".data :=
  c8_missing_input ⟨none, some "old".data⟩ rfl

/-- C9: the end-to-end run on the document whose last `Plotly.newPlot`
call carries the single trace
`{"customdata":[],"name":"cat","x":[1.005,2.0],"y":[0.0,0.0],"z":[0.0,0.0]}`
writes exactly `{"cat":{"x":[1.0,2.0],"y":[0.0,0.0],"z":[0.0,0.0]}}` and
exits 0; in particular rounding `1.005` (the exact rational `201/200`) at
2 decimals yields `1.0` under the implementation's round-half-even rule. -/
theorem c9_end_to_end :
    (runMain ⟨some docEndToEnd, none⟩).2.output
        = some "\x7b\"cat\":\x7b\"x\":[1.0,2.0],\"y\":[0.0,0.0],\"z\":[0.0,0.0]\x7d\x7d".data
    ∧ outMapping (runMain ⟨some docEndToEnd, none⟩).1
        = some [(.str "cat".data,
            ⟨[.finite ⟨1, 1⟩, .finite ⟨2, 1⟩],
             [.finite ⟨0, 1⟩, .finite ⟨0, 1⟩],
             [.finite ⟨0, 1⟩, .finite ⟨0, 1⟩]⟩)]
    ∧ exitCode (runMain ⟨some docEndToEnd, none⟩).1 = some 0
    ∧ rnd2 ⟨201, 200⟩ = ⟨1, 1⟩ :=
  ⟨rfl, rfl, rfl, rfl⟩

/-- C10: a parsed trace object with no `"name"` key is not dropped — with
processable coordinate arrays it is processed normally and stored under
the key `"unknown"`; and an insertion under `"unknown"` overwrites any
existing entry for that key, so of several nameless traces the last one
wins. -/
theorem c10_nameless_stored_as_unknown :
    (∀ (kvs : List (List Char × PyVal)) (qx qy qz : List Q2),
        lookupLast kvs "name".data = none →
        getDefault kvs "x".data (.obj []) = .arr (qx.map PyVal.num) →
        getDefault kvs "y".data (.obj []) = .arr (qy.map PyVal.num) →
        getDefault kvs "z".data (.obj []) = .arr (qz.map PyVal.num) →
        processTrace (.obj kvs) = .ok (.str "unknown".data)
          ⟨qx.map (fun q => PyFloat.finite (rnd2 q)),
           qy.map (fun q => PyFloat.finite (rnd2 q)),
           qz.map (fun q => PyFloat.finite (rnd2 q))⟩)
    ∧ (∀ (m : List (PyKey × Rec3)) (r : Rec3),
        lookupK (dictInsert m (.str "unknown".data) r) (.str "unknown".data)
          = some r) := by
  constructor
  · intro kvs qx qy qz hname hx hy hz
    have hk : toKey (getDefault kvs "name".data (.str "unknown".data))
        = some (.str "unknown".data) := by
      simp only [getDefault, hname]
      rfl
    exact processTrace_plain kvs qx qy qz (.str "unknown".data) hx hy hz hk
  · intro m r
    exact lookupK_dictInsert m (.str "unknown".data) r

/-- C10 witness: a concrete nameless trace is stored under `"unknown"`,
and a second insertion under `"unknown"` overwrites the first. -/
theorem c10_nameless_stored_as_unknown_witness :
    processTrace (.obj [("x".data, .arr [.num ⟨1, 1⟩]), ("y".data, .arr []),
        ("z".data, .arr [])])
      = .ok (.str "unknown".data)
        ⟨([⟨1, 1⟩] : List Q2).map (fun q => PyFloat.finite (rnd2 q)),
         ([] : List Q2).map (fun q => PyFloat.finite (rnd2 q)),
         ([] : List Q2).map (fun q => PyFloat.finite (rnd2 q))⟩
    ∧ lookupK (dictInsert [(.str "unknown".data, ⟨[.finite ⟨1, 1⟩], [], []⟩)]
          (.str "unknown".data) ⟨[], [], []⟩) (.str "unknown".data)
        = some ⟨[], [], []⟩ :=
  ⟨c10_nameless_stored_as_unknown.1
      [("x".data, .arr [.num ⟨1, 1⟩]), ("y".data, .arr []), ("z".data, .arr [])]
      [⟨1, 1⟩] [] [] rfl rfl rfl rfl,
   c10_nameless_stored_as_unknown.2
      [(.str "unknown".data, ⟨[.finite ⟨1, 1⟩], [], []⟩)] ⟨[], [], []⟩⟩
